import Mathlib

/-!
Verification of the ARQ-System-Simulation repository.

Shallow embedding of the Python sources (`utils.py`, `coder.py`,
`channel.py`, `arq.py`) into Lean.  Conventions:

* A Python bit list `List[int]` is a `List Nat`; Python `^`, `|`, `&`,
  `<<`, `>>` on ints are `^^^`, `|||`, `&&&`, `<<<`, `>>>` on `Nat`.
* Python code that can raise (tuple unpacking of a wrong-length list,
  indexing an empty list) is embedded as an `Option`-returning function:
  `none` models the raised exception.
* The process-wide `random.random()` stream is modelled as a function
  `u : ℕ → ℚ` giving the successive uniform draws; a function that
  consumes a draw recurses on the shifted stream.
* The stop-and-wait engine takes its channel arguments as explicitly
  state-threading functions `List Nat → σ → List Nat × σ`, mirroring the
  fact that the Python channels mutate the shared global random state.
-/

namespace ARQSim

/-! ### utils.py -/

/-- Embeds the `bits_to_bytes` main loop (`utils.py`, lines 70-77): MSB-first
accumulation of groups of 8 bits.  Returns the emitted bytes together
with the final (possibly incomplete) accumulator `b`. -/
def bits_to_bytes_go : List Nat → Nat → Nat → List Nat × Nat
  | [], b, _ => ([], b)
  | bit :: rest, b, i =>
    let b2 := (b <<< 1) ||| (bit &&& 1)
    if (i + 1) % 8 = 0 then
      let r := bits_to_bytes_go rest 0 (i + 1)
      (b2 :: r.1, r.2)
    else
      bits_to_bytes_go rest b2 (i + 1)

/-- Embeds `utils.bits_to_bytes`: packs bits MSB-first into bytes, the final
incomplete byte left-shifted so the bits occupy its high positions. -/
def bits_to_bytes (bits : List Nat) : List Nat :=
  let r := bits_to_bytes_go bits 0 0
  let rem := bits.length % 8
  if rem = 0 then r.1 else r.1 ++ [r.2 <<< (8 - rem)]

/-- One byte expanded MSB-first, `utils.py` inner loop `range(7,-1,-1)`. -/
def byte_to_bits (byte : Nat) : List Nat :=
  [(byte >>> 7) &&& 1, (byte >>> 6) &&& 1, (byte >>> 5) &&& 1, (byte >>> 4) &&& 1,
   (byte >>> 3) &&& 1, (byte >>> 2) &&& 1, (byte >>> 1) &&& 1, (byte >>> 0) &&& 1]

/-- Embeds `utils.bytes_to_bits`. -/
def bytes_to_bits : List Nat → List Nat
  | [] => []
  | byte :: rest => byte_to_bits byte ++ bytes_to_bits rest

/-- Fuel-indexed worker for `chunkList` below. -/
def chunkFuel : Nat → List α → Nat → List (List α)
  | _, [], _ => []
  | _, _ :: _, 0 => []
  | 0, _ :: _, _ + 1 => []
  | fuel + 1, a :: l, n + 1 => (a :: l).take (n + 1) :: chunkFuel fuel (l.drop n) (n + 1)

/-- Embeds `utils.chunk`: successive slices `lst[i:i+n]`.  Structured with a
fuel argument (the list length bounds the number of slices) so the
recursion is structural; the `fuel = 0` equation is unreachable.  The
Python generator raises for step `0`; the sources only call it with
positive `n`, and the step-`0` equation is never exercised. -/
def chunkList (l : List α) (n : Nat) : List (List α) :=
  chunkFuel l.length l n

/-! ### coder.py -/

/-- Embeds `coder.parity_encode`: append the even-parity bit. -/
def parity_encode (data_bits : List Nat) : List Nat :=
  data_bits ++ [data_bits.sum % 2]

/-- Embeds `coder.parity_check`.  Indexing `rx_bits[-1]` raises `IndexError` on an empty
list, modelled by `none`. -/
def parity_check (rx_bits : List Nat) : Option (Bool × List Nat) :=
  match rx_bits with
  | [] => none
  | x :: xs =>
    let data := (x :: xs).dropLast
    let p := (x :: xs).getLastD 0
    some (decide ((data.sum + p) % 2 = 0), data)

/-- Embeds `coder.hamming74_encode`: the tuple unpacking `d1,d2,d3,d4 = nibble`
raises unless the nibble has length exactly 4, modelled by `none`. -/
def hamming74_encode (nibble : List Nat) : Option (List Nat) :=
  match nibble with
  | [d1, d2, d3, d4] =>
    let p1 := d1 ^^^ d2 ^^^ d4
    let p2 := d1 ^^^ d3 ^^^ d4
    let p3 := d2 ^^^ d3 ^^^ d4
    some [p1, p2, d1, p3, d2, d3, d4]
  | _ => none

/-- One loop iteration of `coder.hamming74_encode_bits`: zero-pad a
short nibble, then encode it.  After padding the nibble has length
exactly 4, so the `Option` default branch is never taken (Python would
raise). -/
def hamming74_pad_encode (nib : List Nat) : List Nat :=
  (hamming74_encode
    (if nib.length < 4 then nib ++ List.replicate (4 - nib.length) 0 else nib)).getD []

/-- Embeds the loop of `coder.hamming74_encode_bits` (coder.py, lines
140-143): chunk into nibbles of 4, zero-pad the last one, encode each,
concatenating the 7-bit blocks.  In the repository this loop is
unreachable: the statement before it raises (see
`hamming74_encode_bits` below). -/
def hamming74_encode_bits_loop (data_bits : List Nat) : List Nat :=
  (chunkList data_bits 4).foldl (fun out nib => out ++ hamming74_pad_encode nib) []

/-- Embeds `coder.hamming74_encode_bits` (coder.py, lines 137-144).
Its body begins with the function-local relative import
`from .utils import chunk` (line 139); in the repository's layout the
source files are top-level modules (every other import in `coder.py`
and `simulate.py` is absolute and there is no package), so this
relative import raises `ImportError` on every call, before the loop
ever runs.  The raise is modelled as `none`, following the same
convention used for the other raising paths. -/
def hamming74_encode_bits (_ : List Nat) : Option (List Nat) :=
  none

/-- Embeds `coder.hamming74_check_and_extract`: the unpacking
`p1,p2,d1,p3,d2,d3,d4 = rx7` raises unless the input has length exactly
7, modelled by `none`. -/
def hamming74_check_and_extract (rx7 : List Nat) : Option (Bool × List Nat) :=
  match rx7 with
  | [p1, p2, d1, p3, d2, d3, d4] =>
    let s1 := p1 ^^^ d1 ^^^ d2 ^^^ d4
    let s2 := p2 ^^^ d1 ^^^ d3 ^^^ d4
    let s3 := p3 ^^^ d2 ^^^ d3 ^^^ d4
    let syndrome := (s3 <<< 2) ||| (s2 <<< 1) ||| s1
    let corrected :=
      if syndrome ≠ 0 ∧ 1 ≤ syndrome ∧ syndrome ≤ 7 then
        [p1, p2, d1, p3, d2, d3, d4].set (syndrome - 1)
          (([p1, p2, d1, p3, d2, d3, d4].getD (syndrome - 1) 0) ^^^ 1)
      else [p1, p2, d1, p3, d2, d3, d4]
    -- the second unpacking `p1c,p2c,d1c,p3c,d2c,d3c,d4c = corrected` cannot
    -- fail (a copy with one index assignment keeps length 7), so it is
    -- embedded as positional extraction
    let q1 := corrected.getD 0 0
    let q2 := corrected.getD 1 0
    let e1 := corrected.getD 2 0
    let q3 := corrected.getD 3 0
    let e2 := corrected.getD 4 0
    let e3 := corrected.getD 5 0
    let e4 := corrected.getD 6 0
    some (decide ((q1 ^^^ e1 ^^^ e2 ^^^ e4) = 0 ∧ (q2 ^^^ e1 ^^^ e3 ^^^ e4) = 0 ∧
                  (q3 ^^^ e2 ^^^ e3 ^^^ e4) = 0), [e1, e2, e3, e4])
  | _ => none

/-- The CRC-32 polynomial (reflected), as used by `binascii.crc32`. -/
def crc32_poly : Nat := 0xEDB88320

/-- One bit step of the `binascii.crc32` computation. -/
def crc32_step (crc : Nat) : Nat :=
  if crc % 2 = 1 then (crc >>> 1) ^^^ crc32_poly else crc >>> 1

/-- One byte step of the `binascii.crc32` computation. -/
def crc32_update_byte (crc byte : Nat) : Nat :=
  crc32_step^[8] (crc ^^^ byte)

/-- Embeds `binascii.crc32` over a byte list: standard CRC-32 (init
`0xFFFFFFFF`, reflected polynomial `0xEDB88320`, final complement),
embedded from the library function's standard definition. -/
def crc32_bytes (data : List Nat) : Nat :=
  (data.foldl crc32_update_byte 0xFFFFFFFF) ^^^ 0xFFFFFFFF

/-- Embeds Python `crc.to_bytes(4, 'big')`. -/
def nat_to_bytes_be4 (n : Nat) : List Nat :=
  [n / 2 ^ 24 % 256, n / 2 ^ 16 % 256, n / 2 ^ 8 % 256, n % 256]

/-- Embeds Python `int.from_bytes(bs, 'big')`. -/
def nat_from_bytes_be (l : List Nat) : Nat :=
  l.foldl (fun acc b => acc * 256 + b) 0

/-- Embeds `coder.crc32_append`. -/
def crc32_append (data_bits : List Nat) : List Nat :=
  let data_bytes := bits_to_bytes data_bits
  let crc := (crc32_bytes data_bytes) &&& 0xFFFFFFFF
  data_bits ++ bytes_to_bits (nat_to_bytes_be4 crc)

/-- Embeds `coder.crc32_check`. -/
def crc32_check (rx_bits : List Nat) : Bool × List Nat :=
  if rx_bits.length < 32 then (false, [])
  else
    let data_bits := rx_bits.take (rx_bits.length - 32)
    let crc_bits := rx_bits.drop (rx_bits.length - 32)
    let data_bytes := bits_to_bytes data_bits
    let crc_expected := nat_from_bytes_be (bits_to_bytes crc_bits)
    let crc_calc := (crc32_bytes data_bytes) &&& 0xFFFFFFFF
    (decide (crc_calc = crc_expected), data_bits)

/-- Modelled from the spec: the bit-stream Hamming(7,4) verifier
("per-block `hamming74_check_and_extract` over the 7-bit blocks; overall
`ok` fails if the total length is not a multiple of 7 or if any block
fails post-correction parity, while the recovered data of all decodable
blocks is still concatenated and returned").  The repository's `src/`
has only the per-block `hamming74_check_and_extract`; the stream-level
composition appears only in the spec. -/
def hamming74_fold_step (acc : Bool × List Nat) (blk : List Nat) : Bool × List Nat :=
  match hamming74_check_and_extract blk with
  | some (ok, data) => (acc.1 && ok, acc.2 ++ data)
  | none => (false, acc.2)

def hamming74_verify_bits (rx_bits : List Nat) : Bool × List Nat :=
  (chunkList rx_bits 7).foldl hamming74_fold_step (true, [])

/-! ### channel.py

Randomness: `random.random()` is modelled by a stream `u : ℕ → ℚ` of
successive draws; a recursive call shifts the stream by the number of
draws consumed. -/

/-- Embeds `channel.bsc_channel`: one uniform draw per bit, flip iff the draw
is below `p_flip`. -/
def bsc_channel : List Nat → ℚ → (ℕ → ℚ) → List Nat
  | [], _, _ => []
  | b :: bs, p_flip, u =>
    (b ^^^ (if u 0 < p_flip then 1 else 0)) :: bsc_channel bs p_flip (fun n => u (n + 1))

/-- The Gilbert-Elliott channel state, `'G'`/`'B'` in `channel.py`. -/
inductive GEState where
  | G : GEState
  | B : GEState
deriving DecidableEq

/-- Per-bit loop of `channel.gilbert_elliott_channel` (lines 96-105):
`err_p` is latched from the current state, then the transition draw is
taken, then the error draw is compared against the latched `err_p`.
Two draws are consumed per bit. -/
def gilbert_elliott_go : List Nat → ℚ → ℚ → ℚ → ℚ → GEState → (ℕ → ℚ) → List Nat
  | [], _, _, _, _, _, _ => []
  | bit :: bits, p_gb, p_bg, err_good, err_bad, GEState.G, u =>
    let err_p := err_good
    let state2 := if u 0 < p_gb then GEState.B else GEState.G
    (bit ^^^ (if u 1 < err_p then 1 else 0)) ::
      gilbert_elliott_go bits p_gb p_bg err_good err_bad state2 (fun n => u (n + 2))
  | bit :: bits, p_gb, p_bg, err_good, err_bad, GEState.B, u =>
    let err_p := err_bad
    let state2 := if u 0 < p_bg then GEState.G else GEState.B
    (bit ^^^ (if u 1 < err_p then 1 else 0)) ::
      gilbert_elliott_go bits p_gb p_bg err_good err_bad state2 (fun n => u (n + 2))

/-- Embeds `channel.gilbert_elliott_channel`: starts in state `'G'`. -/
def gilbert_elliott_channel (bits : List Nat) (p_gb p_bg err_good err_bad : ℚ)
    (u : ℕ → ℚ) : List Nat :=
  gilbert_elliott_go bits p_gb p_bg err_good err_bad GEState.G u

/-! ### arq.py -/

/-- The statistics dictionary built by `arq.stop_and_wait`. -/
structure ArqStats where
  total_sent_bits : Nat
  payload_bits : Nat
  retries_per_packet : List Int
  undetected_errors : Nat
deriving DecidableEq

/-- Python truthiness test `ack_rx and ack_rx[0] == 1` on a list. -/
def ack_success : List Nat → Bool
  | [] => false
  | a :: _ => a == 1

/-- The retry loop of `arq.stop_and_wait` (lines 114-125) for one
packet.  Returns `(retries, sent_bits_added, undetected_added, state)`.
The loop runs while `retries <= max_retries`; a channel is a
state-threading function (the state models the global random source). -/
def saw_loop {σ : Type} (encoded pkt : List Nat)
    (check_and_extract : List Nat → Bool × List Nat)
    (channel_tx channel_ack : List Nat → σ → List Nat × σ)
    (max_retries retries : Int) (s : σ) : Int × Nat × Nat × σ :=
  if retries ≤ max_retries then
    let txr := channel_tx encoded s
    let chk := check_and_extract txr.1
    let ack := if chk.1 then ([1] : List Nat) else [0]
    let ackr := channel_ack ack txr.2
    if ack_success ackr.1 then
      (retries, encoded.length, if chk.1 ∧ chk.2 ≠ pkt then 1 else 0, ackr.2)
    else
      let r := saw_loop encoded pkt check_and_extract channel_tx channel_ack
                 max_retries (retries + 1) ackr.2
      (r.1, encoded.length + r.2.1, r.2.2.1, r.2.2.2)
  else (retries, 0, 0, s)
termination_by (max_retries + 1 - retries).toNat
decreasing_by omega

/-- Embeds `arq.stop_and_wait`: per-packet encode, retry loop, statistics. -/
def stop_and_wait {σ : Type} : List (List Nat) → (List Nat → List Nat) →
    (List Nat → Bool × List Nat) → (List Nat → σ → List Nat × σ) →
    (List Nat → σ → List Nat × σ) → Int → σ → ArqStats × σ
  | [], _, _, _, _, _, s => (⟨0, 0, [], 0⟩, s)
  | pkt :: rest, encode, chk, tx, ack, max_retries, s =>
    let encoded := encode pkt
    let r := saw_loop encoded pkt chk tx ack max_retries 0 s
    let rest_r := stop_and_wait rest encode chk tx ack max_retries r.2.2.2
    (⟨r.2.1 + rest_r.1.total_sent_bits,
      pkt.length + rest_r.1.payload_bits,
      r.1 :: rest_r.1.retries_per_packet,
      r.2.2.1 + rest_r.1.undetected_errors⟩, rest_r.2)

/-- Flip the bit at position `i` (XOR with 1). -/
def flipAt (i : Nat) (l : List Nat) : List Nat :=
  l.set i ((l.getD i 0) ^^^ 1)

/-- All sixteen 4-bit nibbles. -/
def nibbles16 : List (List Nat) :=
  [[0,0,0,0], [0,0,0,1], [0,0,1,0], [0,0,1,1],
   [0,1,0,0], [0,1,0,1], [0,1,1,0], [0,1,1,1],
   [1,0,0,0], [1,0,0,1], [1,0,1,0], [1,0,1,1],
   [1,1,0,0], [1,1,0,1], [1,1,1,0], [1,1,1,1]]

/-! ### Generic helper lemmas about bits -/

theorem lor_two_mul_one (a : Nat) : 2 * a ||| 1 = 2 * a + 1 := by
  have h := @Nat.bitwise_bit or (by rfl) false a true 0
  simpa [Nat.bit, HOr.hOr, OrOp.or] using h

theorem lor_two_mul (a d : Nat) (hd : d < 2) : 2 * a ||| d = 2 * a + d := by
  interval_cases d
  · simp
  · exact lor_two_mul_one a

/-- XOR with 1 flips the parity of a natural number. -/
theorem xor_one_mod_two (x : Nat) : (x ^^^ 1) % 2 = 1 - x % 2 := by
  rcases Nat.mod_two_eq_zero_or_one x with h | h
  · obtain ⟨m, rfl⟩ : ∃ m, x = 2 * m := ⟨x / 2, by omega⟩
    have h2 := @Nat.bitwise_bit xor (by rfl) false m true 0
    simp only [Nat.bit, cond] at h2
    have h3 : 2 * m ^^^ 1 = 2 * m + 1 := by simpa [HXor.hXor, Xor.xor] using h2
    omega
  · obtain ⟨m, rfl⟩ : ∃ m, x = 2 * m + 1 := ⟨x / 2, by omega⟩
    have h2 := @Nat.bitwise_bit xor (by rfl) true m true 0
    simp only [Nat.bit, cond] at h2
    have h3 : (2 * m + 1) ^^^ 1 = 2 * m := by simpa [HXor.hXor, Xor.xor] using h2
    omega

theorem xor_one_ne_self (x : Nat) : x ^^^ 1 ≠ x := by
  intro h
  have := xor_one_mod_two x
  omega

/-! ### Claim C1

The spec asserts the Gilbert-Elliott channel flips each bit against the
error probability of the **post-transition** state.  The code latches
`err_p` from the state *before* the transition draw (`channel.py`,
lines 97-104), contradicting the parenthetical note in its own
docstring (lines 52-56) which asserts the post-transition rate is used.
-/

/-- C1: with `p_gb = 1` every first bit transitions Good→Bad, and all
draws equal 0.  If the post-transition (Bad) error rate were used, the
outputs of the two runs below would be `[1]` and `[0]`; the code
produces `[0]` and `[1]`, i.e. it uses the pre-transition Good rate
(`err_good`) for the transition bit. -/
theorem C1_pre_transition_error_rate_at_failing_input :
    gilbert_elliott_channel [0] 1 0 0 1 (fun _ => 0) = [0] ∧
    gilbert_elliott_channel [0] 1 0 1 0 (fun _ => 0) = [1] := by
  constructor <;> rfl

/-! ### Claim C2 -/

/-- C2 counterexample: `parity_check` raises `IndexError` on an empty
frame and `hamming74_check_and_extract` raises `ValueError` on any
malformed block length (here 6), modelled by `none`; neither returns
`ok=false` with an empty recovered sequence. -/
theorem C2_counterexample_verifiers_raise :
    parity_check [] = none ∧
    hamming74_check_and_extract [0, 0, 0, 0, 0, 0] = none := by
  constructor <;> rfl

/-- C2 amended: `crc32_check` alone is total and returns `(false, [])`
on short frames; `parity_check` returns normally exactly on non-empty
input, and `hamming74_check_and_extract` exactly on length-7 input,
raising otherwise. -/
theorem C2_amended_verifier_totality (rx : List Nat) :
    ((parity_check rx).isSome ↔ rx ≠ []) ∧
    ((hamming74_check_and_extract rx).isSome ↔ rx.length = 7) ∧
    (rx.length < 32 → crc32_check rx = (false, [])) := by
  refine ⟨?_, ?_, ?_⟩
  · cases rx <;> simp [parity_check]
  · rcases rx with _ | ⟨a, _ | ⟨b, _ | ⟨c, _ | ⟨d, _ | ⟨e, _ | ⟨f, _ |
      ⟨g, _ | ⟨h, rest⟩⟩⟩⟩⟩⟩⟩⟩ <;> simp [hamming74_check_and_extract]
  · intro h
    simp [crc32_check, h]

theorem C2_amended_verifier_totality_witness :
    (((parity_check [0, 1]).isSome ↔ ([0, 1] : List Nat) ≠ []) ∧
     ((hamming74_check_and_extract [0, 1]).isSome ↔ ([0, 1] : List Nat).length = 7) ∧
     (([0, 1] : List Nat).length < 32 → crc32_check [0, 1] = (false, []))) :=
  C2_amended_verifier_totality [0, 1]

/-! ### Claim C3 -/

/-- Behaviour of the retry loop when the verifier always reports
`ok = false` and the ACK channel is the identity: the loop exhausts the
whole budget, sending the frame once per remaining attempt. -/
theorem saw_loop_const_false {σ : Type} (encoded pkt : List Nat)
    (tx : List Nat → σ → List Nat × σ) (m : Int) :
    ∀ (n : Nat) (r : Int) (s : σ), (m + 1 - r).toNat = n →
      (saw_loop encoded pkt (fun _ => (false, ([] : List Nat))) tx
          (fun b s2 => (b, s2)) m r s).1 = max r (m + 1) ∧
      (saw_loop encoded pkt (fun _ => (false, ([] : List Nat))) tx
          (fun b s2 => (b, s2)) m r s).2.1 = n * encoded.length ∧
      (saw_loop encoded pkt (fun _ => (false, ([] : List Nat))) tx
          (fun b s2 => (b, s2)) m r s).2.2.1 = 0 := by
  intro n
  induction n with
  | zero =>
    intro r s hn
    rw [saw_loop.eq_def, if_neg (by omega)]
    refine ⟨by omega, by simp, rfl⟩
  | succ k ih =>
    intro r s hn
    rw [saw_loop.eq_def, if_pos (by omega)]
    simp only [ack_success]
    obtain ⟨h1, h2, h3⟩ := ih (r + 1) ((fun b s2 => (b, s2)) [0] (tx encoded s).2).2
      (by omega)
    refine ⟨?_, ?_, ?_⟩ <;> simp [h1, h2, h3, Nat.succ_mul] <;> omega

/-- C3: with a verifier that always reports `ok=false` with empty data
and an ACK channel that delivers its input unchanged, `stop_and_wait`
with `max_retries = 3` makes exactly 4 transmission attempts on the one
packet: `retries = 4` is recorded and `total_sent_bits` is 4 times the
encoded frame length (the loop bound `retries <= max_retries` is
inclusive). -/
theorem C3_failed_verifier_exhausts_budget {σ : Type} (pkt : List Nat)
    (encode : List Nat → List Nat) (tx : List Nat → σ → List Nat × σ) (s : σ) :
    (stop_and_wait [pkt] encode (fun _ => (false, ([] : List Nat))) tx
        (fun b s2 => (b, s2)) 3 s).1 =
      ⟨4 * (encode pkt).length, pkt.length, [4], 0⟩ := by
  obtain ⟨h1, h2, h3⟩ := saw_loop_const_false (encode pkt) pkt tx 3 4 0 s (by omega)
  rw [stop_and_wait, stop_and_wait]
  simp [h1, h2, h3]

/-! ### Claim C4 (counterexample part) -/

/-- C4 counterexample: for the length-1 payload `[1]` the Hamming(7,4)
round trip cannot return `(true, [1])`, because `hamming74_encode_bits`
raises `ImportError` on every call (its function-local relative import
`from .utils import chunk` has no parent package in the repository's
top-level-module layout), so no encoded frame is ever produced. -/
theorem C4_counterexample_hamming_encode_raises :
    (hamming74_encode_bits [1]).map hamming74_verify_bits ≠ some (true, [1]) ∧
    hamming74_encode_bits [1] = none := by
  constructor
  · decide
  · rfl

/-! ### Claim C6 -/

/-- C6: for every 4-bit nibble and every single position `0..6`,
flipping exactly that bit of the Hamming(7,4) code word still verifies
(`ok=true`) and recovers the original nibble. -/
theorem C6_hamming_single_error_correction (n : List Nat) (hn : n ∈ nibbles16) :
    ∀ i : Fin 7,
      (hamming74_encode n).bind
        (fun enc => hamming74_check_and_extract (flipAt i.val enc)) =
      some (true, n) := by
  fin_cases hn <;> decide

theorem C6_hamming_single_error_correction_witness :
    [1, 0, 1, 1] ∈ nibbles16 ∧
    (hamming74_encode [1, 0, 1, 1]).bind
        (fun enc => hamming74_check_and_extract (flipAt 2 enc)) =
      some (true, [1, 0, 1, 1]) :=
  ⟨by decide, C6_hamming_single_error_correction [1, 0, 1, 1] (by decide) 2⟩

/-! ### Claim C10 -/

/-- C10: with any `max_retries < 0` the retry loop body never runs: the
statistics equal `total_sent_bits = 0`, `payload_bits` the sum of the
packet lengths, one recorded retry count `0` per packet and no
undetected errors; the returned channel state is the initial one (no
channel or verifier is ever invoked), for every choice of verifier and
channels. -/
theorem C10_negative_budget_skips_loop {σ : Type} (packets : List (List Nat))
    (encode : List Nat → List Nat) (chk : List Nat → Bool × List Nat)
    (tx ack : List Nat → σ → List Nat × σ) (m : Int) (hm : m < 0) (s : σ) :
    stop_and_wait packets encode chk tx ack m s =
      (⟨0, (packets.map List.length).sum, List.replicate packets.length 0, 0⟩, s) := by
  induction packets generalizing s with
  | nil => rw [stop_and_wait]; simp
  | cons pkt rest ih =>
    rw [stop_and_wait, saw_loop.eq_def, if_neg (by omega)]
    simp [ih, List.replicate_succ]

theorem C10_negative_budget_skips_loop_witness :
    stop_and_wait [[1, 0], [1]] id (fun r => (true, r))
        (fun (b : List Nat) (s : Unit) => (b, s)) (fun b s => (b, s)) (-1) () =
      (⟨0, 3, [0, 0], 0⟩, ()) := by
  have h := C10_negative_budget_skips_loop (σ := Unit) [[1, 0], [1]] id
    (fun r => (true, r)) (fun b s => (b, s)) (fun b s => (b, s)) (-1) (by omega) ()
  simpa using h

/-! ### Claim C5 -/

/-- Per-packet bound: the retry loop increments the undetected-error
count at most once (only at the attempt that terminates the loop). -/
theorem saw_loop_undetected_le_one {σ : Type} (encoded pkt : List Nat)
    (chk : List Nat → Bool × List Nat) (tx ack : List Nat → σ → List Nat × σ)
    (m : Int) :
    ∀ (n : Nat) (r : Int) (s : σ), (m + 1 - r).toNat = n →
      (saw_loop encoded pkt chk tx ack m r s).2.2.1 ≤ 1 := by
  intro n
  induction n with
  | zero =>
    intro r s hn
    rw [saw_loop.eq_def, if_neg (by omega)]
    simp
  | succ k ih =>
    intro r s hn
    rw [saw_loop.eq_def, if_pos (by omega)]
    simp only []
    split <;> split <;>
      first
        | (split <;> simp)
        | exact ih (r + 1) _ (by omega)

/-- C5: for every packet list and every choice of codec, verifier,
channels and retry budget, `stop_and_wait` records exactly one retry
count per packet and counts at most one undetected error per packet. -/
theorem C5_statistics_invariants {σ : Type} (packets : List (List Nat))
    (encode : List Nat → List Nat) (chk : List Nat → Bool × List Nat)
    (tx ack : List Nat → σ → List Nat × σ) (m : Int) (s : σ) :
    ((stop_and_wait packets encode chk tx ack m s).1.retries_per_packet).length =
      packets.length ∧
    (stop_and_wait packets encode chk tx ack m s).1.undetected_errors ≤
      packets.length := by
  induction packets generalizing s with
  | nil => simp [stop_and_wait]
  | cons pkt rest ih =>
    rw [stop_and_wait]
    obtain ⟨ih1, ih2⟩ := ih ((saw_loop (encode pkt) pkt chk tx ack m 0 s).2.2.2)
    have hund := saw_loop_undetected_le_one (encode pkt) pkt chk tx ack m
      ((m + 1 - 0).toNat) 0 s rfl
    refine ⟨by simpa using ih1, ?_⟩
    simp only [List.length_cons]
    omega

/-! ### Claim C7 -/

/-- The random stream used in the C7 counterexample: first draw `9/10`,
all later draws `0`. -/
def u_c7 : ℕ → ℚ := fun n => if n = 0 then 9 / 10 else 0

/-- C7 counterexample: with `p_gb = p_bg = 0` the Gilbert-Elliott
channel does *not* produce the same output as the BSC with
`p_flip = err_good` on the same draw stream (same seed): the GE channel
consumes a transition draw before each error draw, so on the stream
`9/10, 0, 0, ...` with error probability `1/2` it flips the bit (error
draw `0`) while the BSC does not (its draw is `9/10`). -/
theorem C7_counterexample_draw_consumption :
    gilbert_elliott_channel [0] 0 0 (1 / 2) 0 u_c7 = [1] ∧
    bsc_channel [0] (1 / 2) u_c7 = [0] := by
  constructor <;>
    norm_num [gilbert_elliott_channel, gilbert_elliott_go, bsc_channel, u_c7]

/-- C7 amended: with `p_gb = p_bg = 0` (and nonnegative draws, as
`random.random()` produces) the channel stays in the Good state forever
and equals the BSC with `p_flip = err_good` applied to the subsequence
of every second draw (the per-bit error draws, indices 1, 3, 5, ...) --
not to the same raw draw stream, since the GE channel consumes two
draws per bit while the BSC consumes one. -/
theorem gilbert_elliott_go_no_transition (err_good err_bad : ℚ) :
    ∀ (bits : List Nat) (u : ℕ → ℚ), (∀ n, 0 ≤ u n) →
      gilbert_elliott_go bits 0 0 err_good err_bad GEState.G u =
        bsc_channel bits err_good (fun n => u (2 * n + 1)) := by
  intro bits
  induction bits with
  | nil => intro u hu; rfl
  | cons b bs ih =>
    intro u hu
    have h0 : ¬ u 0 < 0 := not_lt.mpr (hu 0)
    have htail := ih (fun n => u (n + 2)) (fun n => hu (n + 2))
    simp only [gilbert_elliott_go, bsc_channel, h0, if_false]
    congr 1

theorem C7_amended_stays_good_bsc_on_error_draws (bits : List Nat)
    (err_good err_bad : ℚ) (u : ℕ → ℚ) (hu : ∀ n, 0 ≤ u n) :
    gilbert_elliott_channel bits 0 0 err_good err_bad u =
      bsc_channel bits err_good (fun n => u (2 * n + 1)) :=
  gilbert_elliott_go_no_transition err_good err_bad bits u hu

theorem C7_amended_stays_good_bsc_on_error_draws_witness :
    (∀ n : ℕ, (0 : ℚ) ≤ (fun _ : ℕ => (0 : ℚ)) n) ∧
    gilbert_elliott_channel [1, 0] 0 0 (1 / 3) (2 / 3) (fun _ : ℕ => (0 : ℚ)) =
      bsc_channel [1, 0] (1 / 3) (fun n : ℕ => (fun _ : ℕ => (0 : ℚ)) (2 * n + 1)) :=
  ⟨fun _ => le_refl 0,
   C7_amended_stays_good_bsc_on_error_draws [1, 0] (1 / 3) (2 / 3)
     (fun _ => 0) (fun _ => le_refl 0)⟩

/-! ### Claim C8 -/

theorem flipAt_length (i : Nat) (l : List Nat) : (flipAt i l).length = l.length := by
  simp [flipAt]

theorem flipAt_cons_zero (a : Nat) (l : List Nat) :
    flipAt 0 (a :: l) = (a ^^^ 1) :: l := rfl

theorem flipAt_cons_succ (i : Nat) (a : Nat) (l : List Nat) :
    flipAt (i + 1) (a :: l) = a :: flipAt i l := rfl

/-- Flipping one bit inside the list flips the parity of the sum. -/
theorem flipAt_sum_mod_two (l : List Nat) :
    ∀ i, i < l.length → (flipAt i l).sum % 2 = (l.sum + 1) % 2 := by
  induction l with
  | nil => intro i hi; simp at hi
  | cons a as ih =>
    intro i hi
    cases i with
    | zero =>
      rw [flipAt_cons_zero]
      have h := xor_one_mod_two a
      simp only [List.sum_cons]
      omega
    | succ j =>
      rw [flipAt_cons_succ]
      have h := ih j (by simpa using hi)
      simp only [List.sum_cons]
      omega

theorem flipAt_append_last (p2 : List Nat) (x : Nat) :
    flipAt p2.length (p2 ++ [x]) = p2 ++ [x ^^^ 1] := by
  induction p2 with
  | nil => rfl
  | cons a as ih => simpa [flipAt_cons_succ] using ih

/-- Closed form of `parity_check` on any non-empty list. -/
theorem parity_check_ne_nil (l : List Nat) (h : l ≠ []) :
    parity_check l =
      some (decide ((l.dropLast.sum + l.getLastD 0) % 2 = 0), l.dropLast) := by
  cases l with
  | nil => exact absurd rfl h
  | cons x xs => rfl

theorem sum_dropLast_add_getLastD : ∀ (l : List Nat) (d : Nat), l ≠ [] →
    l.dropLast.sum + l.getLastD d = l.sum := by
  intro l
  induction l with
  | nil => intro d h; exact absurd rfl h
  | cons x xs ih =>
    intro d h
    cases xs with
    | nil => simp
    | cons y ys =>
      have h2 := ih x (by simp)
      simp only [List.dropLast_cons₂, List.sum_cons, List.getLastD_cons] at h2 ⊢
      omega

/-- The encoded frame has even bit sum. -/
theorem parity_encode_sum_mod_two (p : List Nat) :
    (parity_encode p).sum % 2 = 0 := by
  simp only [parity_encode, List.sum_append, List.sum_cons, List.sum_nil]
  omega

/-- The second half of claim C8: a particular pair of distinct positions
whose double flip passes the parity check with corrupted data. -/
def parity_double_flip_prop (p : List Nat) : Prop :=
  ∃ i j, i ≠ j ∧ i < (parity_encode p).length ∧ j < (parity_encode p).length ∧
    ∃ d, parity_check (flipAt j (flipAt i (parity_encode p))) = some (true, d) ∧ d ≠ p

/-- C8: for every non-empty payload, every single-bit flip of the
parity-encoded frame is detected (`ok=false`), and there is a pair of
positions whose double flip is accepted (`ok=true`) with recovered data
different from the payload. -/
theorem C8_parity_flip_detection (p : List Nat) (hp : p ≠ []) :
    (∀ i, i < (parity_encode p).length →
      (parity_check (flipAt i (parity_encode p))).map Prod.fst = some false) ∧
    parity_double_flip_prop p := by
  constructor
  · intro i hi
    have hne : flipAt i (parity_encode p) ≠ [] := by
      have := flipAt_length i (parity_encode p)
      intro hcon
      rw [hcon] at this
      simp [parity_encode] at this
    rw [parity_check_ne_nil _ hne]
    have hsum := sum_dropLast_add_getLastD _ 0 hne
    have hflip := flipAt_sum_mod_two (parity_encode p) i hi
    have heven := parity_encode_sum_mod_two p
    simp only [Option.map_some', Option.some.injEq, decide_eq_false_iff_not]
    omega
  · obtain ⟨a, as, rfl⟩ : ∃ a as, p = a :: as := by
      cases p with
      | nil => exact absurd rfl hp
      | cons a as => exact ⟨a, as, rfl⟩
    refine ⟨0, (a :: as).length, by simp, by simp [parity_encode], by simp [parity_encode], ?_⟩
    have hframe : parity_encode (a :: as) = a :: (as ++ [(a :: as).sum % 2]) := by
      simp [parity_encode]
    rw [hframe, flipAt_cons_zero]
    have hlen : (a :: as).length = ((a ^^^ 1) :: as).length := by simp
    rw [hlen]
    have h2 : (a ^^^ 1) :: (as ++ [(a :: as).sum % 2]) =
        ((a ^^^ 1) :: as) ++ [(a :: as).sum % 2] := by simp
    rw [h2, flipAt_append_last]
    refine ⟨(a ^^^ 1) :: as, ?_, ?_⟩
    · rw [parity_check_ne_nil _ (by simp)]
      have ha := xor_one_mod_two a
      have hpar := xor_one_mod_two ((a :: as).sum % 2)
      simp only [List.dropLast_concat, List.getLastD_concat, Option.some.injEq,
        Prod.mk.injEq, decide_eq_true_eq]
      refine ⟨?_, trivial⟩
      simp only [List.sum_cons] at hpar ⊢
      omega
    · intro hcon
      exact xor_one_ne_self a (by injection hcon)

theorem C8_parity_flip_detection_witness :
    ([1, 0, 1, 1] : List Nat) ≠ [] ∧
    ((∀ i, i < (parity_encode [1, 0, 1, 1]).length →
        (parity_check (flipAt i (parity_encode [1, 0, 1, 1]))).map Prod.fst =
          some false) ∧
      parity_double_flip_prop [1, 0, 1, 1]) :=
  ⟨by decide, C8_parity_flip_detection [1, 0, 1, 1] (by decide)⟩

/-! ### Claim C4 (amended part)

Supporting theory: `bits_to_bytes` is a left inverse of `bytes_to_bits`
on genuine byte lists, which gives the CRC-32 round trip. -/

theorem shiftLeft_one_or_and_one (a x : Nat) :
    a <<< 1 ||| x &&& 1 = 2 * a + x % 2 := by
  rw [Nat.shiftLeft_eq, Nat.and_one_is_mod, pow_one, Nat.mul_comm]
  exact lor_two_mul a (x % 2) (by omega)

/-- The accumulator value built by eight iterations of the
`bits_to_bytes` loop starting from `0`. -/
def byteOfBits8 (d1 d2 d3 d4 d5 d6 d7 d8 : Nat) : Nat :=
  (((((((0 <<< 1 ||| d1 &&& 1) <<< 1 ||| d2 &&& 1) <<< 1 ||| d3 &&& 1) <<< 1 ||| d4 &&& 1)
    <<< 1 ||| d5 &&& 1) <<< 1 ||| d6 &&& 1) <<< 1 ||| d7 &&& 1) <<< 1 ||| d8 &&& 1

/-- Eight `bits_to_bytes_go` steps from a group boundary emit one byte. -/
theorem bits_to_bytes_go_eight (d1 d2 d3 d4 d5 d6 d7 d8 : Nat) (rest : List Nat)
    (i : Nat) (hi : i % 8 = 0) :
    bits_to_bytes_go (d1 :: d2 :: d3 :: d4 :: d5 :: d6 :: d7 :: d8 :: rest) 0 i =
      (byteOfBits8 d1 d2 d3 d4 d5 d6 d7 d8 :: (bits_to_bytes_go rest 0 (i + 8)).1,
       (bits_to_bytes_go rest 0 (i + 8)).2) := by
  have e1 : ((i + 1) % 8 = 0) = False := eq_false (by omega)
  have e2 : ((i + 1 + 1) % 8 = 0) = False := eq_false (by omega)
  have e3 : ((i + 1 + 1 + 1) % 8 = 0) = False := eq_false (by omega)
  have e4 : ((i + 1 + 1 + 1 + 1) % 8 = 0) = False := eq_false (by omega)
  have e5 : ((i + 1 + 1 + 1 + 1 + 1) % 8 = 0) = False := eq_false (by omega)
  have e6 : ((i + 1 + 1 + 1 + 1 + 1 + 1) % 8 = 0) = False := eq_false (by omega)
  have e7 : ((i + 1 + 1 + 1 + 1 + 1 + 1 + 1) % 8 = 0) = False := eq_false (by omega)
  have e8 : ((i + 1 + 1 + 1 + 1 + 1 + 1 + 1 + 1) % 8 = 0) = True := eq_true (by omega)
  have e9 : i + 1 + 1 + 1 + 1 + 1 + 1 + 1 + 1 = i + 8 := by omega
  simp only [bits_to_bytes_go, byteOfBits8, e1, e2, e3, e4, e5, e6, e7, e8,
    if_false, if_true, e9]

/-- The loop `bits_to_bytes_go` only inspects its position argument modulo 8. -/
theorem bits_to_bytes_go_mod (bits : List Nat) :
    ∀ (b i j : Nat), i % 8 = j % 8 → bits_to_bytes_go bits b i = bits_to_bytes_go bits b j := by
  induction bits with
  | nil => intro b i j h; rfl
  | cons bit rest ih =>
    intro b i j h
    simp only [bits_to_bytes_go]
    by_cases hc : (i + 1) % 8 = 0
    · have hc2 : (j + 1) % 8 = 0 := by omega
      rw [if_pos hc, if_pos hc2, ih 0 (i + 1) (j + 1) (by omega)]
    · have hc2 : ¬ (j + 1) % 8 = 0 := by omega
      rw [if_neg hc, if_neg hc2]
      exact ih _ (i + 1) (j + 1) (by omega)

/-- Reassembling the eight MSB-first bits of a byte below 256 gives the
byte back. -/
theorem byteOfBits8_of_byte (x : Nat) (hx : x < 256) :
    byteOfBits8 (x >>> 7 &&& 1) (x >>> 6 &&& 1) (x >>> 5 &&& 1) (x >>> 4 &&& 1)
      (x >>> 3 &&& 1) (x >>> 2 &&& 1) (x >>> 1 &&& 1) (x >>> 0 &&& 1) = x := by
  simp only [byteOfBits8, shiftLeft_one_or_and_one]
  simp only [Nat.shiftRight_eq_div_pow, Nat.and_one_is_mod]
  norm_num
  omega

theorem bytes_to_bits_length (bytes : List Nat) :
    (bytes_to_bits bytes).length = 8 * bytes.length := by
  induction bytes with
  | nil => rfl
  | cons x rest ih =>
    simp only [bytes_to_bits, byte_to_bits, List.length_append, List.length_cons, ih]
    simp
    omega

/-- Main loop invariant of the byte round trip: packing the bit expansion
of a byte list consumes it byte by byte and ends with an empty
accumulator. -/
theorem bits_to_bytes_go_bytes_to_bits (bytes : List Nat) (hb : ∀ x ∈ bytes, x < 256) :
    bits_to_bytes_go (bytes_to_bits bytes) 0 0 = (bytes, 0) := by
  induction bytes with
  | nil => rfl
  | cons x rest ih =>
    have hx : x < 256 := hb x (by simp)
    have hrest : ∀ y ∈ rest, y < 256 := fun y hy => hb y (by simp [hy])
    have hsplit : bytes_to_bits (x :: rest) =
        (x >>> 7 &&& 1) :: (x >>> 6 &&& 1) :: (x >>> 5 &&& 1) :: (x >>> 4 &&& 1) ::
        (x >>> 3 &&& 1) :: (x >>> 2 &&& 1) :: (x >>> 1 &&& 1) :: (x >>> 0 &&& 1) ::
        bytes_to_bits rest := by
      simp [bytes_to_bits, byte_to_bits]
    rw [hsplit, bits_to_bytes_go_eight _ _ _ _ _ _ _ _ _ 0 rfl,
      bits_to_bytes_go_mod (bytes_to_bits rest) 0 8 0 rfl, ih hrest,
      byteOfBits8_of_byte x hx]

/-- Packing with `bits_to_bytes` is a left inverse of `bytes_to_bits` on byte lists. -/
theorem bits_to_bytes_bytes_to_bits (bytes : List Nat) (hb : ∀ x ∈ bytes, x < 256) :
    bits_to_bytes (bytes_to_bits bytes) = bytes := by
  rw [bits_to_bytes]
  have hlen : (bytes_to_bits bytes).length % 8 = 0 := by
    rw [bytes_to_bits_length]
    omega
  simp only [hlen, if_pos, bits_to_bytes_go_bytes_to_bits bytes hb]

theorem nat_to_bytes_be4_lt (n : Nat) : ∀ x ∈ nat_to_bytes_be4 n, x < 256 := by
  intro x hx
  simp only [nat_to_bytes_be4, List.mem_cons, List.mem_singleton,
    List.not_mem_nil, or_false] at hx
  rcases hx with h | h | h | h <;> subst h <;> exact Nat.mod_lt _ (by norm_num)

theorem nat_from_to_bytes_be4 (n : Nat) (hn : n < 2 ^ 32) :
    nat_from_bytes_be (nat_to_bytes_be4 n) = n := by
  simp only [nat_to_bytes_be4, nat_from_bytes_be, List.foldl]
  norm_num at hn ⊢
  omega

/-- CRC-32 round trip: checking an appended frame with no noise accepts
and returns the payload, for payloads of any length. -/
theorem crc32_roundtrip (p : List Nat) :
    crc32_check (crc32_append p) = (true, p) := by
  rw [crc32_append, crc32_check]
  have hmask : crc32_bytes (bits_to_bytes p) &&& 0xFFFFFFFF ≤ 0xFFFFFFFF :=
    Nat.and_le_right
  have hcb_len : (bytes_to_bits (nat_to_bytes_be4
      (crc32_bytes (bits_to_bytes p) &&& 0xFFFFFFFF))).length = 32 := by
    rw [bytes_to_bits_length]
    rfl
  have hlen : (p ++ bytes_to_bits (nat_to_bytes_be4
      (crc32_bytes (bits_to_bytes p) &&& 0xFFFFFFFF))).length = p.length + 32 := by
    simp [hcb_len]
  rw [if_neg (by omega)]
  have hsub : (p ++ bytes_to_bits (nat_to_bytes_be4
      (crc32_bytes (bits_to_bytes p) &&& 0xFFFFFFFF))).length - 32 = p.length := by
    omega
  rw [hsub]
  have htake : (p ++ bytes_to_bits (nat_to_bytes_be4
      (crc32_bytes (bits_to_bytes p) &&& 0xFFFFFFFF))).take p.length = p :=
    List.take_left p _
  have hdrop : (p ++ bytes_to_bits (nat_to_bytes_be4
      (crc32_bytes (bits_to_bytes p) &&& 0xFFFFFFFF))).drop p.length =
      bytes_to_bits (nat_to_bytes_be4 (crc32_bytes (bits_to_bytes p) &&& 0xFFFFFFFF)) :=
    List.drop_left p _
  rw [htake, hdrop]
  show (decide (crc32_bytes (bits_to_bytes p) &&& 0xFFFFFFFF =
      nat_from_bytes_be (bits_to_bytes (bytes_to_bits (nat_to_bytes_be4
        (crc32_bytes (bits_to_bytes p) &&& 0xFFFFFFFF))))), p) = (true, p)
  rw [bits_to_bytes_bytes_to_bits _ (nat_to_bytes_be4_lt _),
    nat_from_to_bytes_be4 _ (by norm_num at hmask ⊢; omega)]
  simp

/-! Chunking lemmas for `chunkList`. -/

theorem chunkFuel_nil {α : Type} (f n : Nat) : chunkFuel f ([] : List α) n = [] := by
  cases f <;> rfl

theorem chunkFuel_congr {α : Type} : ∀ (f1 f2 : Nat) (l : List α) (n : Nat),
    l.length ≤ f1 → l.length ≤ f2 → chunkFuel f1 l (n + 1) = chunkFuel f2 l (n + 1) := by
  intro f1
  induction f1 with
  | zero =>
    intro f2 l n h1 h2
    cases l with
    | nil => rw [chunkFuel_nil, chunkFuel_nil]
    | cons a l2 => simp at h1
  | succ g ih =>
    intro f2 l n h1 h2
    cases l with
    | nil => rw [chunkFuel_nil, chunkFuel_nil]
    | cons a l2 =>
      cases f2 with
      | zero => simp at h2
      | succ g2 =>
        simp only [List.length_cons] at h1 h2
        simp only [chunkFuel]
        rw [ih g2 (l2.drop n) n (by simp only [List.length_drop]; omega)
          (by simp only [List.length_drop]; omega)]

/-- A chunk of exactly the slice size splits off the front. -/
theorem chunkList_append {α : Type} (b rest : List α) (n : Nat) (hb : b.length = n + 1) :
    chunkList (b ++ rest) (n + 1) = b :: chunkList rest (n + 1) := by
  cases b with
  | nil => simp at hb
  | cons a l2 =>
    have hl2 : l2.length = n := by simp at hb; omega
    rw [chunkList, chunkList]
    simp only [List.cons_append, List.length_cons, chunkFuel, List.append_eq]
    rw [List.take_succ_cons, List.take_left' hl2, List.drop_left' hl2]
    rw [chunkFuel_congr (l2 ++ rest).length rest.length rest n (by simp) le_rfl]

/-- A final short chunk is returned whole. -/
theorem chunkList_short {α : Type} (b : List α) (n : Nat) (hb1 : b ≠ [])
    (hb2 : b.length < n + 1) : chunkList b (n + 1) = [b] := by
  cases b with
  | nil => exact absurd rfl hb1
  | cons a l2 =>
    rw [chunkList]
    simp only [List.length_cons] at hb2
    simp only [List.length_cons, chunkFuel]
    rw [List.take_of_length_le (by simp only [List.length_cons]; omega),
      List.drop_eq_nil_of_le (by omega), chunkFuel_nil]

/-! Hamming(7,4) round-trip over bit streams. -/

/-- Per-block round trip: decoding an encoded nibble (with bit-valued
entries) verifies and recovers the nibble. -/
theorem hamming74_check_encode4 (d1 d2 d3 d4 : Nat)
    (h1 : d1 < 2) (h2 : d2 < 2) (h3 : d3 < 2) (h4 : d4 < 2) :
    hamming74_check_and_extract
      [d1 ^^^ d2 ^^^ d4, d1 ^^^ d3 ^^^ d4, d1, d2 ^^^ d3 ^^^ d4, d2, d3, d4] =
      some (true, [d1, d2, d3, d4]) := by
  interval_cases d1 <;> interval_cases d2 <;> interval_cases d3 <;> interval_cases d4 <;> rfl

theorem foldl_append_extract (g : List Nat → List Nat) :
    ∀ (l : List (List Nat)) (acc : List Nat),
      l.foldl (fun out nib => out ++ g nib) acc =
        acc ++ l.foldl (fun out nib => out ++ g nib) [] := by
  intro l
  induction l with
  | nil => intro acc; simp
  | cons nib l2 ih =>
    intro acc
    simp only [List.foldl_cons]
    rw [ih (acc ++ g nib), ih ([] ++ g nib)]
    simp

theorem hamming74_fold_acc :
    ∀ (l : List (List Nat)) (b : Bool) (d : List Nat),
      l.foldl hamming74_fold_step (b, d) =
        (b && (l.foldl hamming74_fold_step (true, [])).1,
         d ++ (l.foldl hamming74_fold_step (true, [])).2) := by
  intro l
  induction l with
  | nil => intro b d; simp
  | cons blk l2 ih =>
    intro b d
    simp only [List.foldl_cons]
    cases hc : hamming74_check_and_extract blk with
    | none =>
      simp only [hamming74_fold_step, hc]
      rw [ih false d, ih false []]
      simp
    | some v =>
      obtain ⟨ok, data⟩ := v
      simp only [hamming74_fold_step, hc]
      rw [ih (b && ok) (d ++ data), ih (true && ok) ([] ++ data)]
      simp [Bool.and_assoc]

theorem hamming74_pad_encode_four (d1 d2 d3 d4 : Nat) :
    hamming74_pad_encode [d1, d2, d3, d4] =
      [d1 ^^^ d2 ^^^ d4, d1 ^^^ d3 ^^^ d4, d1, d2 ^^^ d3 ^^^ d4, d2, d3, d4] := by
  simp [hamming74_pad_encode, hamming74_encode]

/-- Hamming(7,4) stream round trip of the encode loop: the verifier
accepts and returns the payload padded with zeros to the next 4-bit
boundary.  This is a property of `hamming74_encode_bits_loop`, the loop
body that `coder.hamming74_encode_bits` never reaches because of its
failing import. -/
theorem hamming74_roundtrip_bits :
    ∀ (N : Nat) (p : List Nat), p.length ≤ N → (∀ x ∈ p, x < 2) →
      hamming74_verify_bits (hamming74_encode_bits_loop p) =
        (true, p ++ List.replicate ((4 - p.length % 4) % 4) 0) := by
  intro N
  induction N with
  | zero =>
    intro p hlen hp
    have hnil : p = [] := List.eq_nil_of_length_eq_zero (by omega)
    subst hnil
    rfl
  | succ N ih =>
    intro p hlen hp
    rcases p with _ | ⟨d1, _ | ⟨d2, _ | ⟨d3, _ | ⟨d4, rest⟩⟩⟩⟩
    · rfl
    · have hb := hamming74_check_encode4 d1 0 0 0 (hp d1 (by simp)) (by omega) (by omega)
        (by omega)
      simp only [Nat.xor_zero] at hb
      simp [hamming74_verify_bits, hamming74_encode_bits_loop, chunkList, chunkFuel,
        hamming74_pad_encode, hamming74_encode, hamming74_fold_step, hb]
    · have hb := hamming74_check_encode4 d1 d2 0 0 (hp d1 (by simp)) (hp d2 (by simp))
        (by omega) (by omega)
      simp only [Nat.xor_zero] at hb
      simp [hamming74_verify_bits, hamming74_encode_bits_loop, chunkList, chunkFuel,
        hamming74_pad_encode, hamming74_encode, hamming74_fold_step, hb]
    · have hb := hamming74_check_encode4 d1 d2 d3 0 (hp d1 (by simp)) (hp d2 (by simp))
        (hp d3 (by simp)) (by omega)
      simp only [Nat.xor_zero] at hb
      simp [hamming74_verify_bits, hamming74_encode_bits_loop, chunkList, chunkFuel,
        hamming74_pad_encode, hamming74_encode, hamming74_fold_step, hb]
    · -- at least one full nibble
      have hrest : ∀ x ∈ rest, x < 2 := fun x hx => hp x (by simp [hx])
      have hchunk : chunkList (d1 :: d2 :: d3 :: d4 :: rest) 4 =
          [d1, d2, d3, d4] :: chunkList rest 4 := by
        have h := chunkList_append [d1, d2, d3, d4] rest 3 (by rfl)
        simpa using h
      have henc : hamming74_encode_bits_loop (d1 :: d2 :: d3 :: d4 :: rest) =
          [d1 ^^^ d2 ^^^ d4, d1 ^^^ d3 ^^^ d4, d1, d2 ^^^ d3 ^^^ d4, d2, d3, d4] ++
            hamming74_encode_bits_loop rest := by
        rw [hamming74_encode_bits_loop, hchunk, List.foldl_cons,
          foldl_append_extract hamming74_pad_encode]
        have hdef : (chunkList rest 4).foldl
            (fun out nib => out ++ hamming74_pad_encode nib) [] =
            hamming74_encode_bits_loop rest := rfl
        rw [hdef, hamming74_pad_encode_four]
        simp
      have hchunk7 : chunkList
          (([d1 ^^^ d2 ^^^ d4, d1 ^^^ d3 ^^^ d4, d1, d2 ^^^ d3 ^^^ d4, d2, d3, d4] :
              List Nat) ++ hamming74_encode_bits_loop rest) 7 =
          ([d1 ^^^ d2 ^^^ d4, d1 ^^^ d3 ^^^ d4, d1, d2 ^^^ d3 ^^^ d4, d2, d3, d4] :
              List Nat) :: chunkList (hamming74_encode_bits_loop rest) 7 :=
        chunkList_append _ _ 6 (by rfl)
      have hb := hamming74_check_encode4 d1 d2 d3 d4 (hp d1 (by simp)) (hp d2 (by simp))
        (hp d3 (by simp)) (hp d4 (by simp))
      have hV := ih rest (by simp at hlen; omega) hrest
      rw [henc, hamming74_verify_bits, hchunk7, List.foldl_cons]
      have hstep : hamming74_fold_step (true, [])
          [d1 ^^^ d2 ^^^ d4, d1 ^^^ d3 ^^^ d4, d1, d2 ^^^ d3 ^^^ d4, d2, d3, d4] =
          (true, [d1, d2, d3, d4]) := by
        simp [hamming74_fold_step, hb]
      rw [hstep, hamming74_fold_acc]
      have hVdef : (chunkList (hamming74_encode_bits_loop rest) 7).foldl
          hamming74_fold_step (true, []) = hamming74_verify_bits
            (hamming74_encode_bits_loop rest) := rfl
      rw [hVdef, hV]
      simp only [List.length_cons]
      have hpad : (4 - rest.length % 4) % 4 = (4 - (rest.length + 1 + 1 + 1 + 1) % 4) % 4 := by
        omega
      simp [hpad]

/-- Parity round trip. -/
theorem parity_roundtrip (p : List Nat) :
    parity_check (parity_encode p) = some (true, p) := by
  rw [parity_encode, parity_check_ne_nil _ (by simp)]
  simp only [List.dropLast_concat, List.getLastD_concat, Option.some.injEq,
    Prod.mk.injEq, decide_eq_true_eq]
  refine ⟨by omega, by simp⟩

/-- C4 amended: the no-noise round trip returns `(true, p)` for the
parity and CRC-32 codecs on every payload; the Hamming(7,4) stream
codec has no round trip at all, because `hamming74_encode_bits` raises
`ImportError` on every call (its function-local relative import
`from .utils import chunk` fails in the repository's top-level-module
layout), so it never produces an encoded frame. -/
theorem C4_amended_roundtrip (p : List Nat) :
    parity_check (parity_encode p) = some (true, p) ∧
    crc32_check (crc32_append p) = (true, p) ∧
    hamming74_encode_bits p = none :=
  ⟨parity_roundtrip p, crc32_roundtrip p, rfl⟩

/-! ### Claim C9 -/

theorem shiftLeft_one_lor_mod_two (a b : Nat) : a <<< 1 ||| b % 2 = 2 * a + b % 2 := by
  rw [Nat.shiftLeft_eq, pow_one, Nat.mul_comm]
  exact lor_two_mul a (b % 2) (by omega)

/-- Expanding a reassembled byte recovers its eight bits. -/
theorem byte_to_bits_byteOfBits8 (d1 d2 d3 d4 d5 d6 d7 d8 : Nat)
    (h1 : d1 < 2) (h2 : d2 < 2) (h3 : d3 < 2) (h4 : d4 < 2)
    (h5 : d5 < 2) (h6 : d6 < 2) (h7 : d7 < 2) (h8 : d8 < 2) :
    byte_to_bits (byteOfBits8 d1 d2 d3 d4 d5 d6 d7 d8) =
      [d1, d2, d3, d4, d5, d6, d7, d8] := by
  simp only [byteOfBits8, shiftLeft_one_or_and_one]
  simp only [byte_to_bits, Nat.shiftRight_eq_div_pow, Nat.and_one_is_mod, List.cons.injEq]
  norm_num
  omega

/-- Packing a full leading group of eight bits emits one byte. -/
theorem bits_to_bytes_cons8 (d1 d2 d3 d4 d5 d6 d7 d8 : Nat) (rest : List Nat) :
    bits_to_bytes (d1 :: d2 :: d3 :: d4 :: d5 :: d6 :: d7 :: d8 :: rest) =
      byteOfBits8 d1 d2 d3 d4 d5 d6 d7 d8 :: bits_to_bytes rest := by
  rw [bits_to_bytes, bits_to_bytes]
  simp only [bits_to_bytes_go_eight d1 d2 d3 d4 d5 d6 d7 d8 rest 0 rfl,
    bits_to_bytes_go_mod rest 0 8 0 rfl, List.length_cons]
  have hl : (rest.length + 1 + 1 + 1 + 1 + 1 + 1 + 1 + 1) % 8 = rest.length % 8 := by
    omega
  rw [hl]
  by_cases hc : rest.length % 8 = 0
  · simp [hc]
  · simp [hc]

/-- C9: unpacking after packing reproduces a bit sequence exactly when
its length is a multiple of 8, and otherwise appends trailing zero bits
up to the next byte boundary (the padding sits in the low-order
positions of the final byte). -/
theorem C9_bits_bytes_roundtrip : ∀ (N : Nat) (b : List Nat), b.length ≤ N →
    (∀ x ∈ b, x < 2) →
    bytes_to_bits (bits_to_bytes b) = b ++ List.replicate ((8 - b.length % 8) % 8) 0 := by
  intro N
  induction N with
  | zero =>
    intro b hlen hb
    have hnil : b = [] := List.eq_nil_of_length_eq_zero (by omega)
    subst hnil
    rfl
  | succ N ih =>
    intro b hlen hb
    rcases b with _ | ⟨d1, _ | ⟨d2, _ | ⟨d3, _ | ⟨d4, _ | ⟨d5, _ | ⟨d6, _ |
      ⟨d7, _ | ⟨d8, rest⟩⟩⟩⟩⟩⟩⟩⟩
    · rfl
    · have e1 : d1 < 2 := hb d1 (by simp)
      simp [bits_to_bytes, bits_to_bytes_go, bytes_to_bits, byte_to_bits, List.replicate]
      try simp only [shiftLeft_one_lor_mod_two]
      simp only [Nat.shiftLeft_eq, Nat.shiftRight_eq_div_pow, List.cons.injEq]
      norm_num
      all_goals omega
    · have e1 : d1 < 2 := hb d1 (by simp)
      have e2 : d2 < 2 := hb d2 (by simp)
      simp [bits_to_bytes, bits_to_bytes_go, bytes_to_bits, byte_to_bits, List.replicate]
      try simp only [shiftLeft_one_lor_mod_two]
      simp only [Nat.shiftLeft_eq, Nat.shiftRight_eq_div_pow, List.cons.injEq]
      norm_num
      all_goals omega
    · have e1 : d1 < 2 := hb d1 (by simp)
      have e2 : d2 < 2 := hb d2 (by simp)
      have e3 : d3 < 2 := hb d3 (by simp)
      simp [bits_to_bytes, bits_to_bytes_go, bytes_to_bits, byte_to_bits, List.replicate]
      try simp only [shiftLeft_one_lor_mod_two]
      simp only [Nat.shiftLeft_eq, Nat.shiftRight_eq_div_pow, List.cons.injEq]
      norm_num
      all_goals omega
    · have e1 : d1 < 2 := hb d1 (by simp)
      have e2 : d2 < 2 := hb d2 (by simp)
      have e3 : d3 < 2 := hb d3 (by simp)
      have e4 : d4 < 2 := hb d4 (by simp)
      simp [bits_to_bytes, bits_to_bytes_go, bytes_to_bits, byte_to_bits, List.replicate]
      try simp only [shiftLeft_one_lor_mod_two]
      simp only [Nat.shiftLeft_eq, Nat.shiftRight_eq_div_pow, List.cons.injEq]
      norm_num
      all_goals omega
    · have e1 : d1 < 2 := hb d1 (by simp)
      have e2 : d2 < 2 := hb d2 (by simp)
      have e3 : d3 < 2 := hb d3 (by simp)
      have e4 : d4 < 2 := hb d4 (by simp)
      have e5 : d5 < 2 := hb d5 (by simp)
      simp [bits_to_bytes, bits_to_bytes_go, bytes_to_bits, byte_to_bits, List.replicate]
      try simp only [shiftLeft_one_lor_mod_two]
      simp only [Nat.shiftLeft_eq, Nat.shiftRight_eq_div_pow, List.cons.injEq]
      norm_num
      all_goals omega
    · have e1 : d1 < 2 := hb d1 (by simp)
      have e2 : d2 < 2 := hb d2 (by simp)
      have e3 : d3 < 2 := hb d3 (by simp)
      have e4 : d4 < 2 := hb d4 (by simp)
      have e5 : d5 < 2 := hb d5 (by simp)
      have e6 : d6 < 2 := hb d6 (by simp)
      simp [bits_to_bytes, bits_to_bytes_go, bytes_to_bits, byte_to_bits, List.replicate]
      try simp only [shiftLeft_one_lor_mod_two]
      simp only [Nat.shiftLeft_eq, Nat.shiftRight_eq_div_pow, List.cons.injEq]
      norm_num
      all_goals omega
    · have e1 : d1 < 2 := hb d1 (by simp)
      have e2 : d2 < 2 := hb d2 (by simp)
      have e3 : d3 < 2 := hb d3 (by simp)
      have e4 : d4 < 2 := hb d4 (by simp)
      have e5 : d5 < 2 := hb d5 (by simp)
      have e6 : d6 < 2 := hb d6 (by simp)
      have e7 : d7 < 2 := hb d7 (by simp)
      simp [bits_to_bytes, bits_to_bytes_go, bytes_to_bits, byte_to_bits, List.replicate]
      try simp only [shiftLeft_one_lor_mod_two]
      simp only [Nat.shiftLeft_eq, Nat.shiftRight_eq_div_pow, List.cons.injEq]
      norm_num
      all_goals omega
    · -- a full leading byte
      have e1 : d1 < 2 := hb d1 (by simp)
      have e2 : d2 < 2 := hb d2 (by simp)
      have e3 : d3 < 2 := hb d3 (by simp)
      have e4 : d4 < 2 := hb d4 (by simp)
      have e5 : d5 < 2 := hb d5 (by simp)
      have e6 : d6 < 2 := hb d6 (by simp)
      have e7 : d7 < 2 := hb d7 (by simp)
      have e8 : d8 < 2 := hb d8 (by simp)
      have hrest : ∀ x ∈ rest, x < 2 := fun x hx => hb x (by simp [hx])
      have hlen2 : rest.length ≤ N := by simp at hlen; omega
      rw [bits_to_bytes_cons8]
      rw [bytes_to_bits]
      rw [byte_to_bits_byteOfBits8 d1 d2 d3 d4 d5 d6 d7 d8 e1 e2 e3 e4 e5 e6 e7 e8]
      rw [ih rest hlen2 hrest]
      simp only [List.length_cons]
      have hpad : (8 - rest.length % 8) % 8 =
          (8 - (rest.length + 1 + 1 + 1 + 1 + 1 + 1 + 1 + 1) % 8) % 8 := by
        omega
      simp [hpad]

theorem C9_bits_bytes_roundtrip_witness :
    ([1, 0, 1] : List Nat).length ≤ 3 ∧ (∀ x ∈ ([1, 0, 1] : List Nat), x < 2) ∧
    bytes_to_bits (bits_to_bytes [1, 0, 1]) =
      [1, 0, 1] ++ List.replicate ((8 - ([1, 0, 1] : List Nat).length % 8) % 8) 0 :=
  ⟨by decide, by decide, C9_bits_bytes_roundtrip 3 [1, 0, 1] (by decide) (by decide)⟩

end ARQSim
